import Mathlib

/-!
Verification development for the AmbiAttach repository (`main.py`,
`compile_results.py`, `run_test.py`).

Shallow embedding conventions:
* float scores (logits, losses, learning rates) are modelled as exact
  rationals `ℚ`;
* probabilities, log-probabilities and entropies live in `ℝ`;
* a score of `-inf` (produced by `fill_(float("-inf"))` in `main.py`) is
  modelled as `none : Option ℚ`, since `ℝ` has no infinities;
* fallible code paths are modelled with `Option`/`Except`.
-/

namespace AmbiAttach

variable {n m : ℕ}

/-! ## torch.topk (used by `get_entropy` / `get_surps` in `main.py`)

`torch.topk(state, k, 0)` returns the `k` largest entries of `state` in
decreasing order together with their indices.  We model the selected index
set by sorting all indices by decreasing score (ties broken by increasing
index) and taking the first `k`. -/

/-- Sort key for `torch.topk`: `i` comes before `j` when `i` scores higher,
ties broken by index. -/
def topkOrder (state : Fin n → ℚ) (i j : Fin n) : Bool :=
  decide (state j < state i) || (decide (state i = state j) && decide (i ≤ j))

/-- The indices kept by `torch.topk(state, k, 0)`, as a list. -/
def topkList (state : Fin n → ℚ) (k : ℕ) : List (Fin n) :=
  ((List.finRange n).mergeSort (topkOrder state)).take k

/-- The indices kept by `torch.topk(state, k, 0)`, as a set. -/
def topkSet (state : Fin n → ℚ) (k : ℕ) : Finset (Fin n) :=
  (topkList state k).toFinset

theorem topkOrder_trans (state : Fin n → ℚ) : ∀ a b c : Fin n,
    topkOrder state a b → topkOrder state b c → topkOrder state a c := by
  intro a b c hab hbc
  simp only [topkOrder, Bool.or_eq_true, Bool.and_eq_true, decide_eq_true_eq] at *
  rcases hab with h1 | ⟨h1, h1'⟩ <;> rcases hbc with h2 | ⟨h2, h2'⟩
  · exact Or.inl (h2.trans h1)
  · exact Or.inl (h2 ▸ h1)
  · exact Or.inl (h1 ▸ h2)
  · exact Or.inr ⟨h1.trans h2, h1'.trans h2'⟩

theorem topkOrder_total (state : Fin n → ℚ) : ∀ a b : Fin n,
    topkOrder state a b || topkOrder state b a := by
  intro a b
  simp only [topkOrder, Bool.or_eq_true, Bool.and_eq_true, decide_eq_true_eq]
  rcases lt_trichotomy (state a) (state b) with h | h | h
  · exact Or.inr (Or.inl h)
  · rcases le_total a b with hab | hab
    · exact Or.inl (Or.inr ⟨h, hab⟩)
    · exact Or.inr (Or.inr ⟨h.symm, hab⟩)
  · exact Or.inl (Or.inl h)

theorem topkOrder_score_le {state : Fin n → ℚ} {i j : Fin n}
    (h : topkOrder state i j) : state j ≤ state i := by
  simp only [topkOrder, Bool.or_eq_true, Bool.and_eq_true, decide_eq_true_eq] at h
  rcases h with h | ⟨h, _⟩
  · exact h.le
  · exact h.ge

theorem nodup_topkList (state : Fin n → ℚ) (k : ℕ) : (topkList state k).Nodup :=
  (((List.mergeSort_perm (List.finRange n) (topkOrder state)).nodup_iff).mpr
    (List.nodup_finRange n)).sublist (List.take_sublist _ _)

theorem mem_topkSet_of_le {state : Fin n → ℚ} {k : ℕ} (h : n ≤ k) (i : Fin n) :
    i ∈ topkSet state k := by
  have hlen : ((List.finRange n).mergeSort (topkOrder state)).length = n := by
    simp
  have : topkList state k = (List.finRange n).mergeSort (topkOrder state) :=
    List.take_of_length_le (by rw [hlen]; exact h)
  simp [topkSet, this, List.mem_toFinset]

theorem topkSet_card (state : Fin n → ℚ) {k : ℕ} (hk : k ≤ n) :
    (topkSet state k).card = k := by
  rw [topkSet, List.card_toFinset, (nodup_topkList state k).dedup]
  simp [topkList, hk]

theorem topkSet_scores_ge (state : Fin n → ℚ) (k : ℕ) {i j : Fin n}
    (hi : i ∈ topkSet state k) (hj : j ∉ topkSet state k) : state j ≤ state i := by
  set l := (List.finRange n).mergeSort (topkOrder state) with hl
  have hsorted : l.Pairwise (fun a b => topkOrder state a b) :=
    List.sorted_mergeSort (topkOrder_trans state) (topkOrder_total state) (List.finRange n)
  have hsplit : l.take k ++ l.drop k = l := List.take_append_drop k l
  have hpair : (l.take k ++ l.drop k).Pairwise (fun a b => topkOrder state a b) := by
    rw [hsplit]; exact hsorted
  have hi' : i ∈ l.take k := by
    simpa [topkSet, topkList, List.mem_toFinset, hl] using hi
  have hj' : j ∈ l.drop k := by
    have hjl : j ∈ l := by simp [hl]
    rw [← hsplit] at hjl
    rcases List.mem_append.mp hjl with h | h
    · exact absurd (by simpa [topkSet, topkList, List.mem_toFinset, hl] using h) hj
    · exact h
  exact topkOrder_score_le ((List.pairwise_append.mp hpair).2.2 i hi' j hj')

/-! ## Beams and probability distributions (`get_entropy` / `get_surps`)

Both functions in `main.py` first build `beam`: the input scores when
`args.complexn == 0`; otherwise a copy of the scores where every class not
in the top `complexn` is replaced by `0` (with `--softcliptopk`) or by
`-inf` (default).  `-inf` is modelled as `none`. -/

/-- The `beam` vector built at the top of `get_entropy` and `get_surps`. -/
def beamOf (state : Fin n → ℚ) (complexn : ℕ) (softcliptopk : Bool) : Fin n → Option ℚ :=
  if complexn = 0 then fun i => some (state i)
  else if softcliptopk then fun i => some (if i ∈ topkSet state complexn then state i else 0)
  else fun i => if i ∈ topkSet state complexn then some (state i) else none

/-- `exp` of a possibly `-inf` score: `exp (-inf) = 0`. -/
noncomputable def expOpt : Option ℚ → ℝ
  | none => 0
  | some q => Real.exp (q : ℝ)

/-- Softmax normalizer of a beam. -/
noncomputable def Zbeam (beam : Fin n → Option ℚ) : ℝ := ∑ i, expOpt (beam i)

/-- `nn.functional.softmax(beam, dim=0)` at index `i`. -/
noncomputable def softmaxBeam (beam : Fin n → Option ℚ) (i : Fin n) : ℝ :=
  expOpt (beam i) / Zbeam beam

/-- `nn.functional.log_softmax(beam, dim=0)` at index `i`; `none` stands for
the `-inf` log-probability of a class scored `-inf`. -/
noncomputable def logSoftmaxTerm (beam : Fin n → Option ℚ) (i : Fin n) : Option ℝ :=
  (beam i).map fun q => (q : ℝ) - Real.log (Zbeam beam)

/-- `get_entropy` from `main.py`: `-(probs * logprobs).sum()`, where products
that are NaN are skipped.  In float arithmetic the NaN products are exactly
those of classes scored `-inf` (`probs = 0`, `logprobs = -inf`), so the sum
ranges over the classes inside the beam. -/
noncomputable def get_entropy (complexn : ℕ) (softcliptopk : Bool) (state : Fin n → ℚ) : ℝ :=
  -(∑ i, (logSoftmaxTerm (beamOf state complexn softcliptopk) i).elim 0
      (fun lp => softmaxBeam (beamOf state complexn softcliptopk) i * lp))

/-- `get_surps` from `main.py`: `-log_softmax(beam)` at index `i`.  A class
outside the beam has surprisal `+inf` in the code; `ℝ` has no infinities, so
that (junk) case returns `0` here — no claim exercises it. -/
noncomputable def get_surps (complexn : ℕ) (softcliptopk : Bool) (state : Fin n → ℚ)
    (i : Fin n) : ℝ :=
  -((logSoftmaxTerm (beamOf state complexn softcliptopk) i).elim 0 id)

/-- `torch.log2(torch.exp(x))`: the nats-to-bits conversion applied to the
entropy and surprisal columns in `get_complexity`. -/
noncomputable def natsToBits (x : ℝ) : ℝ := Real.logb 2 (Real.exp x)

theorem natsToBits_eq (x : ℝ) : natsToBits x = x / Real.log 2 := by
  simp [natsToBits, Real.logb, Real.log_exp]

/-! Basic facts about the full-vocabulary beam. -/

theorem beamOf_full (state : Fin n → ℚ) :
    beamOf state n false = fun i => some (state i) := by
  rcases Nat.eq_zero_or_pos n with h | h
  · subst h; simp [beamOf]
  · funext i
    simp [beamOf, h.ne', mem_topkSet_of_le (le_refl n) i]

theorem Zbeam_full (state : Fin n → ℚ) :
    Zbeam (fun i => some (state i)) = ∑ j, Real.exp (state j : ℝ) := by
  simp [Zbeam, expOpt]

theorem Zbeam_full_pos (state : Fin n → ℚ) (i : Fin n) :
    0 < Zbeam (fun j => some (state j)) := by
  rw [Zbeam_full]
  exact Finset.sum_pos (fun j _ => Real.exp_pos _) ⟨i, Finset.mem_univ i⟩

/-! ## `get_complexity` from `main.py`

`get_complexity(state, obs, sentid)` converts the per-position entropies and
surprisals from nats to bits (`torch.log2(torch.exp(...))`), then prints one
row per observed word, skipping `<eos>`.  We model each printed row by a
`CRow` record; the textual line is modelled further below. -/

/-- `Hs` in `get_complexity`: per-position entropy in bits. -/
noncomputable def Hs (state : Fin m → Fin n → ℚ) (complexn : ℕ) (softcliptopk : Bool)
    (p : Fin m) : ℝ :=
  natsToBits (get_entropy complexn softcliptopk (state p))

/-- `surps` in `get_complexity`: per-position, per-class surprisal in bits. -/
noncomputable def surpsMat (state : Fin m → Fin n → ℚ) (complexn : ℕ) (softcliptopk : Bool)
    (p : Fin m) (i : Fin n) : ℝ :=
  natsToBits (get_surps complexn softcliptopk (state p) i)

/-- `max(corpuspos-1, 0)` used to index `Hs` for the previous position. -/
def prevIdx (p : Fin m) : Fin m := ⟨p.val - 1, lt_of_le_of_lt (Nat.sub_le _ _) p.isLt⟩

/-- The `entred` column: `max(0, Hs[max(corpuspos-1, 0)] - Hs[corpuspos])`. -/
noncomputable def entredField (state : Fin m → Fin n → ℚ) (complexn : ℕ) (softcliptopk : Bool)
    (p : Fin m) : ℝ :=
  max 0 (Hs state complexn softcliptopk (prevIdx p) - Hs state complexn softcliptopk p)

/-- One printed word-level complexity row.  `outputguesses` is the optional
pre-joined guess string (present exactly when `--guess` is set); its internal
construction from `get_guesses`/`get_guessscores` is not needed by any claim
and is abstracted as data. -/
structure CRow where
  word : String
  sentid : ℕ
  sentpos : ℕ
  wlen : ℕ
  surp : ℝ
  entropy : ℝ
  entred : ℝ
  outputguesses : Option String

/-- The row printed by `get_complexity` for position `corpuspos = p`,
target word `obs p`. -/
noncomputable def rowAt (idx2word : Fin n → String) (state : Fin m → Fin n → ℚ)
    (complexn : ℕ) (softcliptopk : Bool) (guessStr : Fin m → Option String)
    (obs : Fin m → Fin n) (sentid : ℕ) (p : Fin m) : CRow :=
  { word := idx2word (obs p)
    sentid := sentid
    sentpos := p.val
    wlen := (idx2word (obs p)).length
    surp := surpsMat state complexn softcliptopk p (obs p)
    entropy := Hs state complexn softcliptopk p
    entred := entredField state complexn softcliptopk p
    outputguesses := guessStr p }

/-- `get_complexity`: the list of rows printed for one sentence, in position
order, skipping positions whose target word is `<eos>`. -/
noncomputable def get_complexity (idx2word : Fin n → String) (state : Fin m → Fin n → ℚ)
    (complexn : ℕ) (softcliptopk : Bool) (guessStr : Fin m → Option String)
    (obs : Fin m → Fin n) (sentid : ℕ) : List CRow :=
  (List.finRange m).filterMap fun p =>
    if idx2word (obs p) = "<eos>" then none
    else some (rowAt idx2word state complexn softcliptopk guessStr obs sentid p)

/-! ## Spec-side definitions (information-theoretic formulas)

These follow the spec's words — "surprisal = negative log-probability of the
observed word; entropy = Shannon entropy of the output distribution" — and
are compared with the code-derived definitions above. -/

/-- The model's softmax output distribution over the whole vocabulary. -/
noncomputable def softmaxFull (state : Fin n → ℚ) (i : Fin n) : ℝ :=
  Real.exp (state i : ℝ) / ∑ j, Real.exp (state j : ℝ)

/-- Shannon entropy (base 2) of the full softmax distribution. -/
noncomputable def shannonEntropyBits (state : Fin n → ℚ) : ℝ :=
  -(∑ i, softmaxFull state i * Real.logb 2 (softmaxFull state i))

theorem log_softmaxFull (state : Fin n → ℚ) (targ : Fin n) (i : Fin n) :
    Real.log (softmaxFull state i)
      = (state i : ℝ) - Real.log (Zbeam (fun j => some (state j))) := by
  have hZ : 0 < Zbeam (fun j => some (state j)) := Zbeam_full_pos state targ
  rw [softmaxFull, ← Zbeam_full, Real.log_div (Real.exp_ne_zero _) (ne_of_gt hZ),
    Real.log_exp]

/-- With the beam covering the whole vocabulary, the surprisal column of
`get_complexity` is the negative base-2 log-probability of the target under
the full softmax. -/
theorem surp_field_full (state : Fin n → ℚ) (targ : Fin n) :
    natsToBits (get_surps n false state targ) = -(Real.logb 2 (softmaxFull state targ)) := by
  have h1 : logSoftmaxTerm (fun j => some (state j)) targ
      = some ((state targ : ℝ) - Real.log (Zbeam (fun j => some (state j)))) := by
    simp [logSoftmaxTerm]
  rw [natsToBits_eq, get_surps, beamOf_full, Real.logb,
    log_softmaxFull state targ targ, h1, Option.elim_some, id_eq]
  ring

/-- With the beam covering the whole vocabulary, the entropy column of
`get_complexity` is the base-2 Shannon entropy of the full softmax. -/
theorem entropy_field_full (state : Fin n → ℚ) (targ : Fin n) :
    natsToBits (get_entropy n false state) = shannonEntropyBits state := by
  rw [natsToBits_eq, get_entropy, beamOf_full, shannonEntropyBits]
  rw [neg_div, Finset.sum_div, neg_inj]
  refine Finset.sum_congr rfl fun i _ => ?_
  have h1 : logSoftmaxTerm (fun j => some (state j)) i
      = some ((state i : ℝ) - Real.log (Zbeam (fun j => some (state j)))) := by
    simp [logSoftmaxTerm]
  have h2 : softmaxBeam (fun j => some (state j)) i
      = Real.exp ((state i : ℝ)) / Zbeam (fun j => some (state j)) := by
    simp [softmaxBeam, expOpt]
  rw [h1, Option.elim_some, Real.logb, log_softmaxFull state targ i, h2,
    softmaxFull, ← Zbeam_full]
  ring

/-! ## Concrete instances used by witnesses and counterexamples -/

/-- A two-word dictionary (no `<eos>`). -/
def idx2wordCE : Fin 2 → String := !["a", "b"]

/-- Peaked two-class scores. -/
def s30 : Fin 2 → ℚ := ![3, 0]

/-- Uniform two-class scores. -/
def sUnif : Fin 2 → ℚ := ![0, 0]

/-- Scores of a two-position, two-class sentence: position 0 is peaked
(`[3, 0]`), position 1 is uniform (`[0, 0]`). -/
def stateCE : Fin 2 → Fin 2 → ℚ := ![s30, sUnif]

/-- Observed targets for the concrete sentence. -/
def obsCE : Fin 2 → Fin 2 := ![0, 0]

/-- No `--guess` output. -/
def guessCE : Fin 2 → Option String := fun _ => none

/-! ## Claims C2, C3, C4, C10 -/

/-- C2: in every printed word-level complexity row computed over the full
vocabulary (`complexn` equal to the vocabulary size `n`), the `surp` field is
the negative base-2 log-probability that the softmax output distribution at
that position assigns to the observed next word. -/
theorem c2_full_vocab_surprisal (idx2word : Fin n → String) (state : Fin m → Fin n → ℚ)
    (guessStr : Fin m → Option String) (obs : Fin m → Fin n) (sentid : ℕ) (r : CRow)
    (hr : r ∈ get_complexity idx2word state n false guessStr obs sentid) :
    ∃ p : Fin m, r = rowAt idx2word state n false guessStr obs sentid p
      ∧ r.surp = -(Real.logb 2 (softmaxFull (state p) (obs p))) := by
  obtain ⟨p, -, hp⟩ := List.mem_filterMap.mp hr
  by_cases he : idx2word (obs p) = "<eos>"
  · rw [if_pos he] at hp; exact absurd hp (by simp)
  · rw [if_neg he] at hp
    refine ⟨p, (Option.some_injective _ hp).symm, ?_⟩
    rw [← Option.some_injective _ hp]
    exact surp_field_full (state p) (obs p)

/-- C2 witness: instantiation at a concrete printed row. -/
theorem c2_full_vocab_surprisal_witness :
    (rowAt idx2wordCE stateCE 2 false guessCE obsCE 0 0
        ∈ get_complexity idx2wordCE stateCE 2 false guessCE obsCE 0)
    ∧ ∃ p : Fin 2, rowAt idx2wordCE stateCE 2 false guessCE obsCE 0 0
        = rowAt idx2wordCE stateCE 2 false guessCE obsCE 0 p
      ∧ (rowAt idx2wordCE stateCE 2 false guessCE obsCE 0 0).surp
        = -(Real.logb 2 (softmaxFull (stateCE p) (obsCE p))) := by
  have hr : rowAt idx2wordCE stateCE 2 false guessCE obsCE 0 0
      ∈ get_complexity idx2wordCE stateCE 2 false guessCE obsCE 0 :=
    List.mem_filterMap.mpr ⟨0, List.mem_finRange _, if_neg (by decide)⟩
  exact ⟨hr, c2_full_vocab_surprisal idx2wordCE stateCE guessCE obsCE 0 _ hr⟩

/-- C3: in every printed word-level complexity row computed over the full
vocabulary, the `entropy` field is the base-2 Shannon entropy of the softmax
predictive distribution over the whole vocabulary at that position. -/
theorem c3_full_vocab_entropy (idx2word : Fin n → String) (state : Fin m → Fin n → ℚ)
    (guessStr : Fin m → Option String) (obs : Fin m → Fin n) (sentid : ℕ) (r : CRow)
    (hr : r ∈ get_complexity idx2word state n false guessStr obs sentid) :
    ∃ p : Fin m, r = rowAt idx2word state n false guessStr obs sentid p
      ∧ r.entropy = shannonEntropyBits (state p) := by
  obtain ⟨p, -, hp⟩ := List.mem_filterMap.mp hr
  by_cases he : idx2word (obs p) = "<eos>"
  · rw [if_pos he] at hp; exact absurd hp (by simp)
  · rw [if_neg he] at hp
    refine ⟨p, (Option.some_injective _ hp).symm, ?_⟩
    rw [← Option.some_injective _ hp]
    exact entropy_field_full (state p) (obs p)

/-- C3 witness: instantiation at a concrete printed row. -/
theorem c3_full_vocab_entropy_witness :
    (rowAt idx2wordCE stateCE 2 false guessCE obsCE 0 1
        ∈ get_complexity idx2wordCE stateCE 2 false guessCE obsCE 0)
    ∧ ∃ p : Fin 2, rowAt idx2wordCE stateCE 2 false guessCE obsCE 0 1
        = rowAt idx2wordCE stateCE 2 false guessCE obsCE 0 p
      ∧ (rowAt idx2wordCE stateCE 2 false guessCE obsCE 0 1).entropy
        = shannonEntropyBits (stateCE p) := by
  have hr : rowAt idx2wordCE stateCE 2 false guessCE obsCE 0 1
      ∈ get_complexity idx2wordCE stateCE 2 false guessCE obsCE 0 :=
    List.mem_filterMap.mpr ⟨1, List.mem_finRange _, if_neg (by decide)⟩
  exact ⟨hr, c3_full_vocab_entropy idx2wordCE stateCE guessCE obsCE 0 _ hr⟩

/-- C4: with `complexn = k`, `0 < k ≤ n` and `--softcliptopk` unset, the
probability distribution used for complexity is restricted to the `k`
highest-scoring classes: the selected set has size `k`, dominates every
non-selected class in score, non-selected classes get probability zero, and
selected classes are renormalized over the top `k`. -/
theorem c4_topk_restriction (state : Fin n → ℚ) (k : ℕ) (hk0 : 0 < k) (hkn : k ≤ n) :
    (topkSet state k).card = k
    ∧ (∀ i ∈ topkSet state k, ∀ j ∉ topkSet state k, state j ≤ state i)
    ∧ (∀ j ∉ topkSet state k, softmaxBeam (beamOf state k false) j = 0)
    ∧ (∀ i ∈ topkSet state k, softmaxBeam (beamOf state k false) i
        = Real.exp ((state i : ℝ)) / ∑ j ∈ topkSet state k, Real.exp ((state j : ℝ))) := by
  have hbeam : beamOf state k false
      = fun i => if i ∈ topkSet state k then some (state i) else none := by
    simp [beamOf, hk0.ne']
  have hZ : Zbeam (beamOf state k false)
      = ∑ j ∈ topkSet state k, Real.exp ((state j : ℝ)) := by
    rw [Zbeam, hbeam]
    rw [← Finset.sum_subset (Finset.subset_univ (topkSet state k))
      (fun x _ hx => by simp [expOpt, hx])]
    exact Finset.sum_congr rfl fun i hi => by simp [expOpt, hi]
  refine ⟨topkSet_card state hkn, fun i hi j hj => topkSet_scores_ge state k hi hj,
    fun j hj => ?_, fun i hi => ?_⟩
  · have hb : beamOf state k false j = none := by simp [beamOf, hk0.ne', hj]
    rw [softmaxBeam, hb]
    simp [expOpt]
  · have hb : beamOf state k false i = some (state i) := by simp [beamOf, hk0.ne', hi]
    rw [softmaxBeam, hb, hZ]
    simp [expOpt]

/-- C4 witness: `k = 1`, `n = 2`, scores `[1, 0]`. -/
theorem c4_topk_restriction_witness :
    0 < 1 ∧ 1 ≤ 2
    ∧ ((topkSet (![1, 0] : Fin 2 → ℚ) 1).card = 1
    ∧ (∀ i ∈ topkSet (![1, 0] : Fin 2 → ℚ) 1, ∀ j ∉ topkSet (![1, 0] : Fin 2 → ℚ) 1,
        (![1, 0] : Fin 2 → ℚ) j ≤ (![1, 0] : Fin 2 → ℚ) i)
    ∧ (∀ j ∉ topkSet (![1, 0] : Fin 2 → ℚ) 1,
        softmaxBeam (beamOf (![1, 0] : Fin 2 → ℚ) 1 false) j = 0)
    ∧ (∀ i ∈ topkSet (![1, 0] : Fin 2 → ℚ) 1,
        softmaxBeam (beamOf (![1, 0] : Fin 2 → ℚ) 1 false) i
          = Real.exp (((![1, 0] : Fin 2 → ℚ) i : ℝ))
            / ∑ j ∈ topkSet (![1, 0] : Fin 2 → ℚ) 1, Real.exp (((![1, 0] : Fin 2 → ℚ) j : ℝ)))) :=
  ⟨by decide, by decide, c4_topk_restriction (![1, 0] : Fin 2 → ℚ) 1 (by decide) (by decide)⟩

/-- C10: in every printed word-level complexity row the `entred` field is
non-negative, and at sentence position 0 it is exactly 0. -/
theorem c10_entred_nonneg (idx2word : Fin n → String) (state : Fin m → Fin n → ℚ)
    (complexn : ℕ) (softcliptopk : Bool) (guessStr : Fin m → Option String)
    (obs : Fin m → Fin n) (sentid : ℕ) (r : CRow)
    (hr : r ∈ get_complexity idx2word state complexn softcliptopk guessStr obs sentid) :
    0 ≤ r.entred ∧ (r.sentpos = 0 → r.entred = 0) := by
  obtain ⟨p, -, hp⟩ := List.mem_filterMap.mp hr
  by_cases he : idx2word (obs p) = "<eos>"
  · rw [if_pos he] at hp; exact absurd hp (by simp)
  · rw [if_neg he] at hp
    rw [← Option.some_injective _ hp]
    refine ⟨le_max_left _ _, fun hpos => ?_⟩
    have hp0 : p.val = 0 := hpos
    have hprev : prevIdx p = p := Fin.ext (by simp [prevIdx, hp0])
    simp [rowAt, entredField, hprev]

/-- C10 witness: instantiation at a concrete printed row at position 0. -/
theorem c10_entred_nonneg_witness :
    (rowAt idx2wordCE stateCE 2 false guessCE obsCE 0 0
        ∈ get_complexity idx2wordCE stateCE 2 false guessCE obsCE 0)
    ∧ 0 ≤ (rowAt idx2wordCE stateCE 2 false guessCE obsCE 0 0).entred
    ∧ ((rowAt idx2wordCE stateCE 2 false guessCE obsCE 0 0).sentpos = 0
        → (rowAt idx2wordCE stateCE 2 false guessCE obsCE 0 0).entred = 0) := by
  have hr : rowAt idx2wordCE stateCE 2 false guessCE obsCE 0 0
      ∈ get_complexity idx2wordCE stateCE 2 false guessCE obsCE 0 :=
    List.mem_filterMap.mpr ⟨0, List.mem_finRange _, if_neg (by decide)⟩
  have := c10_entred_nonneg idx2wordCE stateCE 2 false guessCE obsCE 0 _ hr
  exact ⟨hr, this.1, this.2⟩

/-! ## Concrete entropy computations for the C1 counterexample -/

theorem shannonEntropyBits_sUnif : shannonEntropyBits sUnif = 1 := by
  have h0 : (sUnif 0 : ℝ) = 0 := by norm_num [sUnif]
  have h1 : (sUnif 1 : ℝ) = 0 := by norm_num [sUnif]
  have hsum : ∑ j, Real.exp (sUnif j : ℝ) = 2 := by
    rw [Fin.sum_univ_two, h0, h1, Real.exp_zero]; norm_num
  have hp : ∀ i : Fin 2, softmaxFull sUnif i = 1 / 2 := by
    intro i
    fin_cases i <;> rw [softmaxFull, hsum] <;> simp [h0, h1]
  have hlogb : Real.logb 2 (1 / 2) = -1 := by
    rw [one_div, Real.logb_inv, Real.logb_self_eq_one] <;> norm_num
  rw [shannonEntropyBits, Fin.sum_univ_two, hp 0, hp 1, hlogb]
  norm_num

theorem exp_three_gt_eight : (8 : ℝ) < Real.exp 3 := by
  have h := Real.exp_one_gt_d9
  have h3 : Real.exp 1 ^ (3 : ℕ) = Real.exp 3 := by
    rw [← Real.exp_nat_mul]; norm_num
  have h2 : (2 : ℝ) < Real.exp 1 := by linarith
  have hpow : (2 : ℝ) ^ (3 : ℕ) < Real.exp 1 ^ (3 : ℕ) :=
    pow_lt_pow_left₀ h2 (by norm_num) (by norm_num)
  rw [h3] at hpow
  norm_num at hpow
  linarith

theorem shannonEntropyBits_s30_lt_one : shannonEntropyBits s30 < 1 := by
  set Z : ℝ := Real.exp 3 + 1 with hZdef
  have hZpos : 0 < Z := by positivity
  have h0 : (s30 0 : ℝ) = 3 := by norm_num [s30]
  have h1 : (s30 1 : ℝ) = 0 := by norm_num [s30]
  have hsum : ∑ j, Real.exp (s30 j : ℝ) = Z := by
    rw [Fin.sum_univ_two, h0, h1, Real.exp_zero]
  have hp0 : softmaxFull s30 0 = Real.exp 3 / Z := by rw [softmaxFull, hsum, h0]
  have hp1 : softmaxFull s30 1 = 1 / Z := by rw [softmaxFull, hsum, h1, Real.exp_zero]
  have hlogp0 : Real.logb 2 (Real.exp 3 / Z) = (3 - Real.log Z) / Real.log 2 := by
    rw [Real.logb, Real.log_div (Real.exp_ne_zero 3) (ne_of_gt hZpos), Real.log_exp]
  have hlogp1 : Real.logb 2 (1 / Z) = -Real.log Z / Real.log 2 := by
    rw [Real.logb, one_div, Real.log_inv, neg_div]
  have hform : shannonEntropyBits s30 = (Real.log Z - 3 * Real.exp 3 / Z) / Real.log 2 := by
    rw [shannonEntropyBits, Fin.sum_univ_two, hp0, hp1, hlogp0, hlogp1]
    field_simp
    ring
  -- Bound the numerator: log Z - 3 exp 3 / Z ≤ 4 exp (-3) ≤ 1/2 < log 2
  have hZfact : Z = Real.exp 3 * (1 + Real.exp (-3)) := by
    rw [mul_add, mul_one, ← Real.exp_add]
    norm_num
  have hwpos : (0 : ℝ) < 1 + Real.exp (-3) := by positivity
  have hlogZ : Real.log Z = 3 + Real.log (1 + Real.exp (-3)) := by
    rw [hZfact, Real.log_mul (Real.exp_ne_zero 3) (ne_of_gt hwpos), Real.log_exp]
  have hlogw : Real.log (1 + Real.exp (-3)) ≤ Real.exp (-3) := by
    have := Real.log_le_sub_one_of_pos hwpos
    linarith
  have hsplit : 3 * Real.exp 3 / Z = 3 - 3 / Z := by
    field_simp
    ring
  have h3Z : 3 / Z ≤ 3 * Real.exp (-3) := by
    rw [Real.exp_neg]
    have hepos := Real.exp_pos 3
    rw [div_le_iff hZpos]
    nlinarith [mul_inv_cancel₀ (ne_of_gt hepos), inv_pos.mpr hepos]
  have hexp8 : Real.exp (-3) < 1 / 8 := by
    rw [Real.exp_neg, inv_lt (Real.exp_pos 3) (by norm_num)]
    simpa using exp_three_gt_eight
  have hnum : Real.log Z - 3 * Real.exp 3 / Z < 1 / 2 := by
    rw [hsplit, hlogZ]
    linarith
  have hlog2 : (1 : ℝ) / 2 < Real.log 2 := by
    have := Real.log_two_gt_d9
    linarith
  rw [hform, div_lt_one (by linarith : (0:ℝ) < Real.log 2)]
  linarith

theorem Hs_stateCE_zero_lt_one : Hs stateCE 2 false 0 < Hs stateCE 2 false 1 := by
  have h0 : Hs stateCE 2 false 0 = shannonEntropyBits s30 := by
    have : stateCE 0 = s30 := rfl
    rw [Hs, this]
    exact entropy_field_full s30 0
  have h1 : Hs stateCE 2 false 1 = shannonEntropyBits sUnif := by
    have : stateCE 1 = sUnif := rfl
    rw [Hs, this]
    exact entropy_field_full sUnif 0
  rw [h0, h1, shannonEntropyBits_sUnif]
  exact shannonEntropyBits_s30_lt_one

/-! ## Claim C1 -/

/-- C1 counterexample: in the concrete two-position sentence whose entropy
increases from position 0 to position 1, the printed `entred` value at
position 1 is not the difference between the previous and current entropy
(the code clamps the negative difference to 0). -/
theorem c1_counterexample :
    ((get_complexity idx2wordCE stateCE 2 false guessCE obsCE 0).map CRow.entred
      = [entredField stateCE 2 false 0, entredField stateCE 2 false 1])
    ∧ entredField stateCE 2 false 1
        ≠ Hs stateCE 2 false (prevIdx 1) - Hs stateCE 2 false 1 := by
  constructor
  · have hfr : List.finRange 2 = [0, 1] := by decide
    rw [get_complexity, hfr]
    rw [List.filterMap_cons, List.filterMap_cons, List.filterMap_nil,
      if_neg (by decide : ¬idx2wordCE (obsCE 0) = "<eos>"),
      if_neg (by decide : ¬idx2wordCE (obsCE 1) = "<eos>")]
    rfl
  · have hlt := Hs_stateCE_zero_lt_one
    have hprev : prevIdx (1 : Fin 2) = 0 := rfl
    rw [hprev, entredField, hprev]
    rw [max_eq_left (by linarith)]
    intro h
    linarith

/-- C1 (amended): every printed row's `entred` field equals
`max 0 (Hs[max(p-1,0)] - Hs[p])`; in particular it equals the decrease
`Hs[p-1] - Hs[p]` whenever the entropy does not increase at `p`. -/
theorem c1_entred_clamped_diff (idx2word : Fin n → String) (state : Fin m → Fin n → ℚ)
    (complexn : ℕ) (softcliptopk : Bool) (guessStr : Fin m → Option String)
    (obs : Fin m → Fin n) (sentid : ℕ) (r : CRow)
    (hr : r ∈ get_complexity idx2word state complexn softcliptopk guessStr obs sentid) :
    ∃ p : Fin m, r = rowAt idx2word state complexn softcliptopk guessStr obs sentid p
      ∧ r.entred = max 0 (Hs state complexn softcliptopk (prevIdx p)
          - Hs state complexn softcliptopk p)
      ∧ (Hs state complexn softcliptopk p ≤ Hs state complexn softcliptopk (prevIdx p)
          → r.entred = Hs state complexn softcliptopk (prevIdx p)
              - Hs state complexn softcliptopk p) := by
  obtain ⟨p, -, hp⟩ := List.mem_filterMap.mp hr
  by_cases he : idx2word (obs p) = "<eos>"
  · rw [if_pos he] at hp; exact absurd hp (by simp)
  · rw [if_neg he] at hp
    refine ⟨p, (Option.some_injective _ hp).symm, ?_, ?_⟩
    · rw [← Option.some_injective _ hp]; rfl
    · intro hmono
      rw [← Option.some_injective _ hp]
      show entredField state complexn softcliptopk p = _
      rw [entredField, max_eq_right (by linarith)]

/-- C1 (amended) witness: instantiation at a concrete printed row. -/
theorem c1_entred_clamped_diff_witness :
    (rowAt idx2wordCE stateCE 2 false guessCE obsCE 0 0
        ∈ get_complexity idx2wordCE stateCE 2 false guessCE obsCE 0)
    ∧ ∃ p : Fin 2, rowAt idx2wordCE stateCE 2 false guessCE obsCE 0 0
        = rowAt idx2wordCE stateCE 2 false guessCE obsCE 0 p
      ∧ (rowAt idx2wordCE stateCE 2 false guessCE obsCE 0 0).entred
          = max 0 (Hs stateCE 2 false (prevIdx p) - Hs stateCE 2 false p)
      ∧ (Hs stateCE 2 false p ≤ Hs stateCE 2 false (prevIdx p)
          → (rowAt idx2wordCE stateCE 2 false guessCE obsCE 0 0).entred
              = Hs stateCE 2 false (prevIdx p) - Hs stateCE 2 false p) := by
  have hr : rowAt idx2wordCE stateCE 2 false guessCE obsCE 0 0
      ∈ get_complexity idx2wordCE stateCE 2 false guessCE obsCE 0 :=
    List.mem_filterMap.mpr ⟨0, List.mem_finRange _, if_neg (by decide)⟩
  exact ⟨hr, c1_entred_clamped_diff idx2wordCE stateCE 2 false guessCE obsCE 0 _ hr⟩

/-! ## Test-time adaptation (`test_evaluate`, lines 474-482 of `main.py`) -/

/-- One adaptation update: `param.data.add_(-lr, param.grad.data)` for every
parameter whose gradient is present.  The gradients passed here are the
already-clipped ones: `clip_grad_norm` rescales all gradients by a scalar,
absorbed into the gradient function below. -/
def adaptUpdateParams (lr : ℚ) (params : List ℚ) (grads : List (Option ℚ)) : List ℚ :=
  params.zipWith (fun p g => g.elim p (fun gv => p + (-lr) * gv)) grads

/-- The model parameters after `test_evaluate` processes the given sentences:
each sentence contributes one gradient update when `--adapt` is set and no
update otherwise.  `gradOf s ps` is the clipped gradient of the sentence-`s`
loss at parameters `ps` (`None` for parameters without a gradient). -/
def test_evaluate_params (adapt : Bool) (lr : ℚ) (gradOf : ℕ → List ℚ → List (Option ℚ))
    (sents : List ℕ) (params : List ℚ) : List ℚ :=
  sents.foldl (fun ps s => if adapt then adaptUpdateParams lr ps (gradOf s ps) else ps) params

/-- C7: without `--adapt`, test-time evaluation leaves every model parameter
unchanged, over any number of sentences; with `--adapt`, each evaluated
sentence applies exactly one update, in which a parameter with a present
gradient becomes `p - lr * g` and one without a gradient stays `p`. -/
theorem c7_adapt_frame (lr : ℚ) (gradOf : ℕ → List ℚ → List (Option ℚ)) :
    (∀ (sents : List ℕ) (params : List ℚ),
        test_evaluate_params false lr gradOf sents params = params)
    ∧ (∀ (s : ℕ) (sents : List ℕ) (params : List ℚ),
        test_evaluate_params true lr gradOf (s :: sents) params
          = test_evaluate_params true lr gradOf sents
              (adaptUpdateParams lr params (gradOf s params)))
    ∧ (∀ (p g : ℚ) (ps : List ℚ) (gs : List (Option ℚ)),
        adaptUpdateParams lr (p :: ps) (some g :: gs)
            = (p - lr * g) :: adaptUpdateParams lr ps gs
          ∧ adaptUpdateParams lr (p :: ps) (none :: gs)
            = p :: adaptUpdateParams lr ps gs) := by
  refine ⟨fun sents => ?_, fun s sents params => rfl, fun p g ps gs => ?_⟩
  · induction sents with
    | nil => intro params; rfl
    | cons s t ih => intro params; simpa [test_evaluate_params] using ih params
  · constructor
    · simp [adaptUpdateParams]
      ring
    · simp [adaptUpdateParams]

/-! ## Vocabulary-mismatch error handling (`test_evaluate`, lines 457-461) -/

/-- `output.view(-1, ntokens)`: reshaping a tensor of `numel` elements into
rows of width `ntokens` succeeds exactly when `ntokens` is nonzero and
divides `numel`; otherwise it raises a `RuntimeError`. -/
def viewFlat (numel ntokens : ℕ) : Except String (ℕ × ℕ) :=
  if ntokens ≠ 0 ∧ numel % ntokens = 0 then .ok (numel / ntokens, ntokens)
  else .error "RuntimeError"

/-- The `try/except RuntimeError` around the reshape in `test_evaluate`: on
failure the vocabulary warning is printed (second component `true`) and the
same exception is re-raised by the bare `raise`; on success evaluation
proceeds to the per-sentence loss with no warning. -/
def reshapeStep (numel ntokens : ℕ) (loss : ℕ × ℕ → ℚ) : Except String ℚ × Bool :=
  match viewFlat numel ntokens with
  | .error e => (.error e, true)
  | .ok shape => (.ok (loss shape), false)

/-- C9: per-sentence evaluation raises exactly when the underlying reshape
raises, with the same exception, and the warning is printed exactly in that
case; on success it returns the loss computed from the reshaped output. -/
theorem c9_reshape_error_propagation (numel ntokens : ℕ) (loss : ℕ × ℕ → ℚ) :
    (∀ e, (reshapeStep numel ntokens loss).1 = .error e
        ↔ viewFlat numel ntokens = .error e)
    ∧ ((reshapeStep numel ntokens loss).2 = true
        ↔ ∃ e, viewFlat numel ntokens = .error e)
    ∧ (∀ shape, viewFlat numel ntokens = .ok shape
        → (reshapeStep numel ntokens loss).1 = .ok (loss shape)) := by
  cases h : viewFlat numel ntokens with
  | error e => exact ⟨fun e' => by simp [reshapeStep, h], by simp [reshapeStep, h],
      fun shape hs => by cases hs⟩
  | ok v => exact ⟨fun e' => by simp [reshapeStep, h], by simp [reshapeStep, h],
      fun shape hs => by cases hs; simp [reshapeStep, h]⟩

/-! ## `compile_results.py` -/

/-- One data line of a result file, reduced to the two columns the script
reads: `int(line[1])` (sentence id) and `line[4]` (surprisal; the string is
converted with `float` inside `Entry`, modelled by carrying `ℚ` directly). -/
structure ResultRow where
  sentid : ℕ
  surp : ℚ
deriving DecidableEq

/-- The `Entry` class of `compile_results.py`: the four per-condition
surprisals `high_sg, low_sg, low_pl, high_pl` read from `surps[0]..surps[3]`. -/
structure Entry where
  high_sg : ℚ
  low_sg : ℚ
  low_pl : ℚ
  high_pl : ℚ
deriving DecidableEq

/-- `Entry(surps)`.  Callers guarantee `len(surps) == 4`, so the defaults of
`getD` are never read. -/
def Entry.ofSurps (surps : List ℚ) : Entry :=
  ⟨surps.getD 0 0, surps.getD 1 0, surps.getD 2 0, surps.getD 3 0⟩

/-- State of the `for line in data` loop in `compile_results.py`.
`surp = none` models the Python variable not yet being bound. -/
structure LoopSt where
  sentID : ℕ
  last_line : Option ResultRow
  surp : Option ℚ
  surps : List ℚ
  entries : List Entry

/-- The body of `for line in data`.  Returns `none` where Python would raise
a `TypeError` (`last_line[4]` with `last_line` still `None`). -/
def processLine (st : LoopSt) (line : ResultRow) : Option LoopSt :=
  if line.sentid ≠ st.sentID then
    match st.last_line with
    | none => none
    | some ll =>
      let surp := ll.surp
      let surps := st.surps ++ [surp]
      if surps.length = 4 then
        some ⟨line.sentid, some line, some surp, [], st.entries ++ [Entry.ofSurps surps]⟩
      else
        some ⟨line.sentid, some line, some surp, surps, st.entries⟩
  else
    some { st with last_line := some line }

/-- One result file processed by `compile_results.py`: the line loop starting
from `sentID = 0`, followed by the trailing `surps.append(surp)` and the
final length-4 check.  Note the trailing append reads the variable `surp`
(last set at the previous id transition), not `last_line[4]`.  Returns
`none` where Python would raise (`NameError` when `surp` was never bound). -/
def processFile (lines : List ResultRow) : Option (List Entry) := do
  let st ← lines.foldlM processLine ⟨0, none, none, [], []⟩
  let surp ← st.surp
  let surps := st.surps ++ [surp]
  pure (if surps.length = 4 then st.entries ++ [Entry.ofSurps surps] else st.entries)

/-- `statistics.mean` (callers pass nonempty lists). -/
def pyMean (l : List ℚ) : ℚ := l.sum / l.length

/-- The four per-condition means printed for one experiment, in the printed
order `HIGH_SG, LOW_SG, HIGH_PL, LOW_PL`; entries accumulate over all result
files of the experiment. -/
def expMeans (files : List (List ResultRow)) : Option (ℚ × ℚ × ℚ × ℚ) := do
  let entriesLists ← files.mapM processFile
  let entries := entriesLists.flatten
  pure (pyMean (entries.map Entry.high_sg), pyMean (entries.map Entry.low_sg),
        pyMean (entries.map Entry.high_pl), pyMean (entries.map Entry.low_pl))

/-- Spec-side: the surprisal of sentence `sid`, read from the last output row
carrying that sentence's id. -/
def lastRowSurp (lines : List ResultRow) (sid : ℕ) : Option ℚ :=
  ((lines.filter (fun l => l.sentid = sid)).getLast?).map ResultRow.surp

/-- A minimal well-formed result file: four sentences (ids 0,1,2,3, one row
each) with final-row surprisals 10, 20, 30, 40. -/
def linesCE : List ResultRow := [⟨0, 10⟩, ⟨1, 20⟩, ⟨2, 30⟩, ⟨3, 40⟩]

/-- C5 (code bug): on `linesCE` the script's `high_pl` slot receives 30 — the
surprisal of sentence 2, the value the variable `surp` still holds from the
last id transition — while the last output row carrying sentence id 3 has
surprisal 40.  The reported HIGH PL mean is therefore 30, not the mean 40 of
the final sentences' last-row surprisals. -/
theorem c5_trailing_surp_bug :
    processFile linesCE = some [⟨10, 20, 30, 30⟩]
    ∧ expMeans [linesCE] = some (10, 20, 30, 30)
    ∧ lastRowSurp linesCE 3 = some 40
    ∧ (30 : ℚ) ≠ 40 := by
  have h1 : processFile linesCE = some [⟨10, 20, 30, 30⟩] := by rfl
  refine ⟨h1, ?_, by rfl, by decide⟩
  rw [expMeans, List.mapM_cons, h1, List.mapM_nil]
  norm_num [pyMean]

/-! ## Printed complexity lines and the header

`get_complexity` prints each row as `args.csep.join([...])`; `test_evaluate`
prints the header with `'word{0}sentid{0}...'.format(args.csep)` followed by
one `guessN` column per guess (plus at most one of `gscoreN`, `gprobN`,
`gratioN`). -/

/-- Python `sep.join(fields)`. -/
def pyJoin (sep : String) : List String → String
  | [] => ""
  | [x] => x
  | x :: y :: xs => x ++ sep ++ pyJoin sep (y :: xs)

/-- Concatenation of a list of strings (sequential `print(..., end='')`). -/
def strConcat : List String → String
  | [] => ""
  | x :: xs => x ++ strConcat xs

/-- The text of one printed complexity row, exactly as `get_complexity`
builds it: the 8-element join when `--guess` is set (the joined guess string
as last element), the 7-element join otherwise.  `fmt` stands for Python's
`str(float(...))` rendering. -/
noncomputable def printedLine (csep : String) (fmt : ℝ → String) (r : CRow) : String :=
  match r.outputguesses with
  | some g => pyJoin csep [r.word, toString r.sentid, toString r.sentpos, toString r.wlen,
      fmt r.surp, fmt r.entropy, fmt r.entred, g]
  | none => pyJoin csep [r.word, toString r.sentid, toString r.sentpos, toString r.wlen,
      fmt r.surp, fmt r.entropy, fmt r.entred]

/-- The header prefix printed in `test_evaluate`: the format string for
`complexn == ntokens`, or the variant suffixing the beam size otherwise. -/
def headerBase (csep : String) (complexn ntokens : ℕ) : String :=
  if complexn = ntokens then
    "word" ++ csep ++ "sentid" ++ csep ++ "sentpos" ++ csep ++ "wlen" ++ csep ++ "surp"
      ++ csep ++ "entropy" ++ csep ++ "entred"
  else
    "word" ++ csep ++ "sentid" ++ csep ++ "sentpos" ++ csep ++ "wlen"
      ++ csep ++ "surp" ++ toString complexn
      ++ csep ++ "entropy" ++ toString complexn
      ++ csep ++ "entred" ++ toString complexn

/-- The text printed for guess column `i` of the header. -/
def guessCol (csep : String) (gscores gprobs gratios : Bool) (i : ℕ) : String :=
  csep ++ "guess" ++ toString i
    ++ (if gscores then csep ++ "gscore" ++ toString i
        else if gprobs then csep ++ "gprob" ++ toString i
        else if gratios then csep ++ "gratio" ++ toString i
        else "")

/-- The complete header line (when `--words` is set and the header is not
suppressed), before the final newline. -/
def headerLine (csep : String) (complexn ntokens : ℕ) (guess : Bool) (guessn : ℕ)
    (gscores gprobs gratios : Bool) : String :=
  headerBase csep complexn ntokens
    ++ (if guess then strConcat ((List.range guessn).map (guessCol csep gscores gprobs gratios))
        else "")

/-- The column names contributed by guess column `i`. -/
def guessColNames (gscores gprobs gratios : Bool) (i : ℕ) : List String :=
  ("guess" ++ toString i)
    :: (if gscores then ["gscore" ++ toString i]
        else if gprobs then ["gprob" ++ toString i]
        else if gratios then ["gratio" ++ toString i]
        else [])

/-- The empty-or-`complexn` suffix on the surp/entropy/entred column names. -/
def colSuffix (complexn ntokens : ℕ) : String :=
  if complexn = ntokens then "" else toString complexn

theorem strConcat_append (a b : List String) :
    strConcat (a ++ b) = strConcat a ++ strConcat b := by
  induction a with
  | nil => simp [strConcat]
  | cons x xs ih => simp [strConcat, ih, String.append_assoc]

theorem pyJoin_cons (sep : String) : ∀ (l : List String) (x : String),
    pyJoin sep (x :: l) = x ++ strConcat (l.map (fun y => sep ++ y)) := by
  intro l
  induction l with
  | nil => intro x; simp [pyJoin, strConcat]
  | cons y ys ih =>
    intro x
    rw [show pyJoin sep (x :: y :: ys) = x ++ sep ++ pyJoin sep (y :: ys) from rfl, ih y]
    simp [strConcat, String.append_assoc]

theorem strConcat_guessCols (csep : String) (gscores gprobs gratios : Bool) :
    ∀ l : List ℕ,
      strConcat ((l.flatMap (guessColNames gscores gprobs gratios)).map (fun y => csep ++ y))
        = strConcat (l.map (guessCol csep gscores gprobs gratios)) := by
  intro l
  induction l with
  | nil => rfl
  | cons i t ih =>
    rw [List.flatMap_cons, List.map_append, strConcat_append, List.map_cons, strConcat, ih]
    congr 1
    rcases gscores with _ | _ <;> rcases gprobs with _ | _ <;> rcases gratios with _ | _ <;>
      simp [guessColNames, guessCol, strConcat, String.append_assoc]

/-- C8: every printed complexity row is exactly the `csep`-join of the fields
word, sentence id, sentence position, word length, surprisal, entropy,
entropy reduction, followed by the optional guess field when `--guess` is
set; and the header (not suppressed) is the `csep`-join of the column names
in that same order, with the beam-size suffix on the metric names when
`complexn` differs from the vocabulary size, followed by the guess column
names. -/
theorem c8_row_and_header (csep : String) (fmt : ℝ → String) (r : CRow)
    (complexn ntokens guessn : ℕ) (guess gscores gprobs gratios : Bool) :
    printedLine csep fmt r
      = pyJoin csep ([r.word, toString r.sentid, toString r.sentpos, toString r.wlen,
          fmt r.surp, fmt r.entropy, fmt r.entred]
          ++ r.outputguesses.elim [] (fun g => [g]))
    ∧ headerLine csep complexn ntokens guess guessn gscores gprobs gratios
      = pyJoin csep (["word", "sentid", "sentpos", "wlen",
          "surp" ++ colSuffix complexn ntokens,
          "entropy" ++ colSuffix complexn ntokens,
          "entred" ++ colSuffix complexn ntokens]
          ++ (if guess then
                (List.range guessn).flatMap (guessColNames gscores gprobs gratios)
              else [])) := by
  constructor
  · cases hg : r.outputguesses <;> simp [printedLine, hg]
  · by_cases hk : complexn = ntokens <;> cases guess <;>
      simp [headerLine, headerBase, colSuffix, hk, pyJoin_cons, strConcat,
        String.append_assoc, strConcat_guessCols]

/-! ## The training epoch loop (`main.py`, lines 549-577) -/

/-- Mutable state across training epochs: the learning rate, `best_val_loss`
(`none` models Python's initial `None`), and `no_improvement`. -/
structure TrainSt where
  lr : ℚ
  best_val_loss : Option ℚ
  no_improvement : ℕ

/-- Per-epoch observable outcome: the epoch's validation loss, whether the
model was checkpointed after it, the learning rate after it, and whether
training stopped early after it. -/
structure EpochRec where
  val_loss : ℚ
  saved : Bool
  lrAfter : ℚ
  stopped : Bool
deriving DecidableEq

/-- The test `not best_val_loss or val_loss < best_val_loss`, with Python
truthiness: `None` and `0.0` are falsy, and the comparison is only reached
when `best_val_loss` is bound. -/
def saveCond (best : Option ℚ) (val_loss : ℚ) : Bool :=
  match best with
  | none => true
  | some b => b == 0 || decide (val_loss < b)

/-- One epoch of the checkpoint/anneal/stop logic after `evaluate`. -/
def trainStep (st : TrainSt) (val_loss : ℚ) : TrainSt × EpochRec :=
  if saveCond st.best_val_loss val_loss then
    (⟨st.lr, some val_loss, 0⟩, ⟨val_loss, true, st.lr, false⟩)
  else
    let ni := st.no_improvement + 1
    if 3 ≤ ni then
      (⟨st.lr, st.best_val_loss, ni⟩, ⟨val_loss, false, st.lr, true⟩)
    else
      (⟨st.lr / 4, st.best_val_loss, ni⟩, ⟨val_loss, false, st.lr / 4, false⟩)

/-- The epoch loop over the validation losses of the successive epochs; the
`break` truncates the run right after a stopping epoch. -/
def trainLoop (st : TrainSt) : List ℚ → List EpochRec
  | [] => []
  | v :: vs =>
    let sr := trainStep st v
    if sr.2.stopped then [sr.2] else sr.2 :: trainLoop sr.1 vs

/-- A whole training run: `lr = args.lr`, `best_val_loss = None`,
`no_improvement = 0`. -/
def trainRun (lr0 : ℚ) (losses : List ℚ) : List EpochRec :=
  trainLoop ⟨lr0, none, 0⟩ losses

/-- The learning rate in effect when epoch `i` of the trace runs. -/
def lrBefore (lr0 : ℚ) (recs : List EpochRec) : ℕ → ℚ
  | 0 => lr0
  | j + 1 => ((recs.get? j).map EpochRec.lrAfter).getD lr0

/-- Length of the run of consecutive non-checkpointing epochs ending at a
given position of the trace, starting from `ni` such epochs before it. -/
def consecFrom (ni : ℕ) (recs : List EpochRec) : ℕ → ℕ
  | 0 => if ((recs.get? 0).map EpochRec.saved).getD true = false then ni + 1 else 0
  | i + 1 => if ((recs.get? (i + 1)).map EpochRec.saved).getD true = false
             then consecFrom ni recs i + 1 else 0

/-- Claim C6 exactly as stated, as a predicate on one training run: an epoch
checkpoints iff its validation loss is strictly below every previous epoch's;
every non-checkpointing epoch divides the learning rate by 4; and training
stops exactly on the third consecutive non-checkpointing epoch. -/
def C6Prop (lr0 : ℚ) (losses : List ℚ) : Prop :=
  (∀ i : Fin (trainRun lr0 losses).length,
      (((trainRun lr0 losses).get i).saved = true
        ↔ ∀ j : Fin (trainRun lr0 losses).length, j.val < i.val
            → ((trainRun lr0 losses).get i).val_loss < ((trainRun lr0 losses).get j).val_loss))
  ∧ (∀ i : Fin (trainRun lr0 losses).length,
      ((trainRun lr0 losses).get i).saved = false
        → ((trainRun lr0 losses).get i).lrAfter
            = lrBefore lr0 (trainRun lr0 losses) i.val / 4)
  ∧ (∀ i : Fin (trainRun lr0 losses).length,
      ((trainRun lr0 losses).get i).stopped = true
        ↔ consecFrom 0 (trainRun lr0 losses) i.val = 3)

instance (lr0 : ℚ) (losses : List ℚ) : Decidable (C6Prop lr0 losses) := by
  unfold C6Prop
  infer_instance

/-- C6 counterexample: with initial learning rate 20 and validation losses
`[0, 5, 6, 7, 8]`, epoch 2 (loss 5) checkpoints although its loss is higher
than epoch 1's (the stored best 0.0 is falsy, so `not best_val_loss`
re-triggers the save), and the early-stopping epoch (loss 8, the third
consecutive non-improvement) keeps the learning rate instead of dividing it
by 4. -/
theorem c6_counterexample : ¬ C6Prop 20 [0, 5, 6, 7, 8] := by
  decide

/-! Helper lemmas for the amended training-loop theorem. -/

theorem min?_append_singleton (l : List ℚ) (v : ℚ) :
    (l ++ [v]).min? = some ((l.min?).elim v (fun b => min b v)) := by
  cases l with
  | nil => rfl
  | cons x xs =>
    rw [List.cons_append, List.min?_cons', List.min?_cons', List.foldl_append]
    rfl

theorem min?_spec {l : List ℚ} {b : ℚ} (h : l.min? = some b) :
    b ∈ l ∧ ∀ u ∈ l, b ≤ u := by
  refine ⟨List.min?_mem (fun a b => min_choice a b) h, fun u hu => ?_⟩
  exact (List.le_min?_iff (fun a b c => le_min_iff) h).mp (le_refl b) u hu

theorem lt_min?_iff {l : List ℚ} {b : ℚ} (h : l.min? = some b) (v : ℚ) :
    v < b ↔ ∀ u ∈ l, v < u := by
  obtain ⟨hmem, hle⟩ := min?_spec h
  exact ⟨fun hv u hu => lt_of_lt_of_le hv (hle u hu), fun hall => hall b hmem⟩

theorem lrBefore_cons (lr0 : ℚ) (r : EpochRec) (rest : List EpochRec) :
    ∀ j, j < rest.length → lrBefore lr0 (r :: rest) (j + 1) = lrBefore r.lrAfter rest j := by
  intro j hj
  cases j with
  | zero => rfl
  | succ t =>
    have ht : t < rest.length := Nat.lt_of_succ_lt hj
    rw [lrBefore, lrBefore, List.get?_cons_succ, List.get?_eq_get ht]
    rfl

theorem consecFrom_cons (ni : ℕ) (r : EpochRec) (rest : List EpochRec) :
    ∀ j, consecFrom ni (r :: rest) (j + 1)
      = consecFrom (if r.saved then 0 else ni + 1) rest j := by
  intro j
  induction j with
  | zero =>
    cases hs : r.saved <;> cases h0 : rest.get? 0 <;>
      simp [consecFrom, hs, h0, List.get?_cons_succ, List.get?_cons_zero]
  | succ t ih =>
    rw [consecFrom, ih]
    cases ht : rest.get? (t + 1) <;>
      simp [consecFrom, ht, List.get?_cons_succ]

/-- The checkpoint/anneal/stop specification of a training trace `recs` run
on `losses`, entered with learning rate `lr0`, `ni` consecutive
non-improving epochs so far, and the previous validation losses `prev`:
the trace covers a prefix of the losses; an epoch checkpoints iff its loss is
strictly below all earlier losses; a non-checkpointing epoch that does not
stop divides the learning rate by 4, while checkpointing and stopping epochs
keep it; an epoch stops iff it is the third consecutive non-checkpointing
one; and a stopping epoch ends the trace. -/
def EpochSpec (lr0 : ℚ) (prev : List ℚ) (ni : ℕ) (losses : List ℚ)
    (recs : List EpochRec) : Prop :=
  recs.map EpochRec.val_loss = losses.take recs.length
  ∧ ∀ i (hi : i < recs.length),
      ((recs.get ⟨i, hi⟩).saved = true
        ↔ ∀ u ∈ prev ++ losses.take i, (recs.get ⟨i, hi⟩).val_loss < u)
      ∧ ((recs.get ⟨i, hi⟩).saved = false → (recs.get ⟨i, hi⟩).stopped = false
          → (recs.get ⟨i, hi⟩).lrAfter = lrBefore lr0 recs i / 4)
      ∧ (((recs.get ⟨i, hi⟩).saved = true ∨ (recs.get ⟨i, hi⟩).stopped = true)
          → (recs.get ⟨i, hi⟩).lrAfter = lrBefore lr0 recs i)
      ∧ ((recs.get ⟨i, hi⟩).stopped = true ↔ consecFrom ni recs i = 3)
      ∧ ((recs.get ⟨i, hi⟩).stopped = true → i + 1 = recs.length)

theorem trainLoop_spec (losses : List ℚ) : ∀ (lr : ℚ) (prev : List ℚ) (ni : ℕ),
    (∀ v ∈ prev, 0 < v) → (∀ v ∈ losses, 0 < v) → ni < 3 →
    EpochSpec lr prev ni losses (trainLoop ⟨lr, prev.min?, ni⟩ losses) := by
  induction losses with
  | nil =>
    intro lr prev ni _ _ _
    exact ⟨rfl, fun i hi => absurd hi (by simp [trainLoop])⟩
  | cons v vs ih =>
    intro lr prev ni hppos hlpos hni
    have hv : 0 < v := hlpos v (by simp)
    have hvs : ∀ u ∈ vs, 0 < u := fun u hu => hlpos u (by simp [hu])
    have hppos' : ∀ u ∈ prev ++ [v], 0 < u := by
      intro u hu
      rcases List.mem_append.mp hu with h | h
      · exact hppos u h
      · rw [List.mem_singleton.mp h]; exact hv
    by_cases hsave : saveCond prev.min? v = true
    · -- checkpoint branch
      have hforall : ∀ u ∈ prev, v < u := by
        rcases hpm : prev.min? with _ | b
        · have : prev = [] := by simpa using hpm
          subst this; simp
        · rw [hpm] at hsave
          have hb0 : b ≠ 0 := ne_of_gt (hppos b (min?_spec hpm).1)
          have hvb : v < b := by
            rcases Bool.or_eq_true_iff.mp hsave with h | h
            · exact absurd (by simpa using h) hb0
            · simpa using h
          exact (lt_min?_iff hpm v).mp hvb
      have hmin : (prev ++ [v]).min? = some v := by
        rcases hpm : prev.min? with _ | b
        · have : prev = [] := by simpa using hpm
          subst this; rfl
        · rw [min?_append_singleton, hpm, Option.elim_some,
            min_eq_right (le_of_lt ((lt_min?_iff hpm v).mpr hforall))]
      have hloop : trainLoop ⟨lr, prev.min?, ni⟩ (v :: vs)
          = ⟨v, true, lr, false⟩ :: trainLoop ⟨lr, some v, 0⟩ vs := by
        simp [trainLoop, trainStep, hsave]
      obtain ⟨ihmap, ihidx⟩ := by
        have h := ih lr (prev ++ [v]) 0 hppos' hvs (by norm_num)
        rw [hmin] at h
        exact h
      rw [hloop]
      set rest := trainLoop ⟨lr, some v, 0⟩ vs with hrest
      refine ⟨by simp [ihmap], ?_⟩
      intro i hi
      rcases i with _ | j
      · refine ⟨by simpa using hforall, by simp, by simp [lrBefore], ?_, by simp⟩
        simp [consecFrom]
      · have hj : j < rest.length := Nat.lt_of_succ_lt_succ (by simpa using hi)
        obtain ⟨c1, c2, c3, c4, c5⟩ := ihidx j hj
        have hget : (⟨v, true, lr, false⟩ :: rest).get ⟨j + 1, hi⟩ = rest.get ⟨j, hj⟩ := by
          simp
        refine ⟨?_, ?_, ?_, ?_, ?_⟩
        · rw [hget, c1]
          constructor
          · intro h u hu
            apply h u
            simpa [List.append_assoc] using hu
          · intro h u hu
            apply h u
            simpa [List.append_assoc] using hu
        · intro h1 h2
          rw [hget] at h1 h2 ⊢
          rw [lrBefore_cons lr _ rest j hj]
          exact c2 h1 h2
        · intro h1
          rw [hget] at h1 ⊢
          rw [lrBefore_cons lr _ rest j hj]
          exact c3 h1
        · rw [hget, consecFrom_cons]
          simpa using c4
        · intro h1
          rw [hget] at h1
          simpa using c5 h1
    · -- non-improving epoch: extract the stored best
      have hne : prev.min? ≠ none := by
        intro h
        rw [h] at hsave
        exact hsave rfl
      obtain ⟨b, hpm⟩ := Option.ne_none_iff_exists'.mp hne
      rw [hpm] at hsave
      have hb0 : b ≠ 0 := ne_of_gt (hppos b (min?_spec hpm).1)
      have hvb : ¬ v < b := by
        intro h
        exact hsave (by simp [saveCond, h])
      have hnotall : ¬ ∀ u ∈ prev, v < u := fun h => hvb (h b (min?_spec hpm).1)
      have hsaveq : saveCond (some b) v = false := by
        simp [saveCond, hvb, hb0]
      by_cases hstop : 3 ≤ ni + 1
      · -- third consecutive non-improvement: stop, keep lr
        have hni3 : ni + 1 = 3 := le_antisymm (by omega) hstop
        have hloop : trainLoop ⟨lr, prev.min?, ni⟩ (v :: vs) = [⟨v, false, lr, true⟩] := by
          simp [trainLoop, trainStep, hsaveq, hstop, hpm]
        rw [hloop]
        refine ⟨by simp, ?_⟩
        intro i hi
        have hi0 : i = 0 := by simpa using Nat.lt_one_iff.mp (by simpa using hi)
        subst hi0
        refine ⟨by simpa using hnotall, ?_, by simp [lrBefore], ?_, by simp⟩
        · intro _ h2
          exact absurd h2 (by simp)
        · simp [consecFrom, hni3]
      · -- anneal: divide lr by 4 and continue
        have hni' : ni + 1 < 3 := by omega
        have hmin : (prev ++ [v]).min? = some b := by
          rw [min?_append_singleton, hpm, Option.elim_some, min_eq_left (not_lt.mp hvb)]
        have hloop : trainLoop ⟨lr, prev.min?, ni⟩ (v :: vs)
            = ⟨v, false, lr / 4, false⟩ :: trainLoop ⟨lr / 4, some b, ni + 1⟩ vs := by
          simp [trainLoop, trainStep, hsaveq, hstop, hpm]
        obtain ⟨ihmap, ihidx⟩ := by
          have h := ih (lr / 4) (prev ++ [v]) (ni + 1) hppos' hvs hni'
          rw [hmin] at h
          exact h
        rw [hloop]
        set rest := trainLoop ⟨lr / 4, some b, ni + 1⟩ vs with hrest
        refine ⟨by simp [ihmap], ?_⟩
        intro i hi
        rcases i with _ | j
        · refine ⟨by simpa using hnotall, by simp [lrBefore], ?_, ?_, by simp⟩
          · intro h1
            rcases h1 with h1 | h1 <;> exact absurd h1 (by simp)
          · simp [consecFrom]
            omega
        · have hj : j < rest.length := Nat.lt_of_succ_lt_succ (by simpa using hi)
          obtain ⟨c1, c2, c3, c4, c5⟩ := ihidx j hj
          have hget : (⟨v, false, lr / 4, false⟩ :: rest).get ⟨j + 1, hi⟩
              = rest.get ⟨j, hj⟩ := by
            simp
          refine ⟨?_, ?_, ?_, ?_, ?_⟩
          · rw [hget, c1]
            constructor
            · intro h u hu
              apply h u
              simpa [List.append_assoc] using hu
            · intro h u hu
              apply h u
              simpa [List.append_assoc] using hu
          · intro h1 h2
            rw [hget] at h1 h2 ⊢
            rw [lrBefore_cons lr _ rest j hj]
            exact c2 h1 h2
          · intro h1
            rw [hget] at h1 ⊢
            rw [lrBefore_cons lr _ rest j hj]
            exact c3 h1
          · rw [hget, consecFrom_cons]
            simpa using c4
          · intro h1
            rw [hget] at h1
            simpa using c5 h1

/-- C6 (amended): when every validation loss is positive, the model is
checkpointed after an epoch iff that epoch's validation loss is strictly
lower than every previous epoch's; the learning rate is divided by 4 on each
non-improving epoch except the one that triggers early stopping (which keeps
it, as do checkpointing epochs); and training stops early exactly on the
third consecutive non-improving epoch, which ends the run.  (Without
positivity, a stored best loss of exactly 0.0 is falsy in Python and would
re-trigger checkpointing.) -/
theorem c6_checkpoint_anneal_stop (lr0 : ℚ) (losses : List ℚ)
    (hpos : ∀ v ∈ losses, 0 < v) :
    (trainRun lr0 losses).map EpochRec.val_loss
        = losses.take (trainRun lr0 losses).length
    ∧ ∀ i (hi : i < (trainRun lr0 losses).length),
        (((trainRun lr0 losses).get ⟨i, hi⟩).saved = true
          ↔ ∀ u ∈ losses.take i, ((trainRun lr0 losses).get ⟨i, hi⟩).val_loss < u)
        ∧ (((trainRun lr0 losses).get ⟨i, hi⟩).saved = false
            → ((trainRun lr0 losses).get ⟨i, hi⟩).stopped = false
            → ((trainRun lr0 losses).get ⟨i, hi⟩).lrAfter
                = lrBefore lr0 (trainRun lr0 losses) i / 4)
        ∧ ((((trainRun lr0 losses).get ⟨i, hi⟩).saved = true
              ∨ ((trainRun lr0 losses).get ⟨i, hi⟩).stopped = true)
            → ((trainRun lr0 losses).get ⟨i, hi⟩).lrAfter
                = lrBefore lr0 (trainRun lr0 losses) i)
        ∧ (((trainRun lr0 losses).get ⟨i, hi⟩).stopped = true
            ↔ consecFrom 0 (trainRun lr0 losses) i = 3)
        ∧ (((trainRun lr0 losses).get ⟨i, hi⟩).stopped = true
            → i + 1 = (trainRun lr0 losses).length) := by
  have h := trainLoop_spec losses lr0 [] 0 (by simp) hpos (by norm_num)
  simpa [EpochSpec, trainRun] using h

/-- C6 (amended) witness: a concrete run with losses `[2, 1]`. -/
theorem c6_checkpoint_anneal_stop_witness :
    (∀ v ∈ [(2 : ℚ), 1], 0 < v)
    ∧ ((trainRun 20 [(2 : ℚ), 1]).map EpochRec.val_loss
        = [(2 : ℚ), 1].take (trainRun 20 [(2 : ℚ), 1]).length
    ∧ ∀ i (hi : i < (trainRun 20 [(2 : ℚ), 1]).length),
        (((trainRun 20 [(2 : ℚ), 1]).get ⟨i, hi⟩).saved = true
          ↔ ∀ u ∈ [(2 : ℚ), 1].take i, ((trainRun 20 [(2 : ℚ), 1]).get ⟨i, hi⟩).val_loss < u)
        ∧ (((trainRun 20 [(2 : ℚ), 1]).get ⟨i, hi⟩).saved = false
            → ((trainRun 20 [(2 : ℚ), 1]).get ⟨i, hi⟩).stopped = false
            → ((trainRun 20 [(2 : ℚ), 1]).get ⟨i, hi⟩).lrAfter
                = lrBefore 20 (trainRun 20 [(2 : ℚ), 1]) i / 4)
        ∧ ((((trainRun 20 [(2 : ℚ), 1]).get ⟨i, hi⟩).saved = true
              ∨ ((trainRun 20 [(2 : ℚ), 1]).get ⟨i, hi⟩).stopped = true)
            → ((trainRun 20 [(2 : ℚ), 1]).get ⟨i, hi⟩).lrAfter
                = lrBefore 20 (trainRun 20 [(2 : ℚ), 1]) i)
        ∧ (((trainRun 20 [(2 : ℚ), 1]).get ⟨i, hi⟩).stopped = true
            ↔ consecFrom 0 (trainRun 20 [(2 : ℚ), 1]) i = 3)
        ∧ (((trainRun 20 [(2 : ℚ), 1]).get ⟨i, hi⟩).stopped = true
            → i + 1 = (trainRun 20 [(2 : ℚ), 1]).length)) :=
  ⟨by decide, c6_checkpoint_anneal_stop 20 [(2 : ℚ), 1] (by decide)⟩

end AmbiAttach
